import Mathlib

set_option maxRecDepth 16000

/-!
# Verification of the Pion oracle Schnorr signing utilities

This file gives a shallow embedding of `src/utils.js`: a single-signer Schnorr
signature subsystem over secp256k1 (via the `elliptic` npm package and
`web3`'s keccak/soliditySha3 helpers), together with the `runMuonApp`
signing pipeline.

Modelling conventions:
* JS `BN` values that are always nonnegative are modelled as `Nat`;
  `BN#umod` on a possibly negative difference is modelled through `Int`
  (`jsUmod`), which matches `BN`'s nonnegative residue.
* Elliptic-curve points are modelled as `Option (Nat × Nat)` — affine
  coordinates reduced mod the field prime, with `none` the point at
  infinity — mirroring the affine formulas of `elliptic`'s short-curve
  `add`/`dbl`/`mul`/`validate` (`lib/elliptic/curve/short.js`).  Field
  inversion is modelled by Fermat exponentiation, which agrees with
  `redInvm` on the nonzero inputs that actually occur.
* `keccak256` and `soliditySha3` are external library primitives, so they
  are parameters of the embedding: `H : List Nat → Nat` maps a byte list
  to the 256-bit hash value, and `SH3 : List SignParam → Nat` models the
  typed-ABI `soliditySha3` over an ordered field list.
* JS strings are `List Char`; thrown JS exceptions are `Except` errors.
* `elliptic`'s `validate` accepts the point at infinity (`short.js`:
  `if (point.inf) return true;`), so `ecValidate none = true` and
  `pointAdd` performs the genuine group addition whenever both arguments
  are on the curve or at infinity.
* `encodePointBytes`/`xCoord`/`yCoord` return junk (`[]`, `0`) at the
  point at infinity, where `elliptic` THROWS (`getX` / `encode` on the
  infinity point); no theorem below depends on those junk values: the
  points they are applied to are affine by construction, or an explicit
  affineness hypothesis marks where the program would instead throw.
-/

/-- secp256k1 base-field prime `p = 2^256 - 2^32 - 977`
(curve preset of the `elliptic` package). -/
def secpP : Nat := 115792089237316195423570985008687907853269984665640564039457584007908834671663

/-- secp256k1 group order `n` (`curve.n` in the source). -/
def secpN : Nat := 115792089237316195423570985008687907852837564279074904382605163141518161494337

/-- x-coordinate of the secp256k1 generator `curve.g`. -/
def gX : Nat := 55066263022277343669578718895168534326250603453777594175500187360389116729240

/-- y-coordinate of the secp256k1 generator `curve.g`. -/
def gY : Nat := 32670510020758816978083085130507043184471273380659243275938904335757337482424

/-- Fuel-driven binary modular exponentiation (accumulator form). -/
def powModAux : Nat → Nat → Nat → Nat → Nat → Nat
  | 0, _, _, _, acc => acc
  | fuel+1, b, e, m, acc =>
    if e = 0 then acc
    else powModAux fuel (b * b % m) (e / 2) m (if e % 2 = 1 then acc * b % m else acc)

/-- `powMod b e m = b ^ e % m`, computed by binary exponentiation so that the
kernel can evaluate it on 256-bit inputs. -/
def powMod (b e m : Nat) : Nat := powModAux 512 (b % m) e m (1 % m)

/-- Modular inverse in the secp256k1 base field, via Fermat's little theorem.
Models `BN#redInvm`, with which it agrees on nonzero field elements. -/
def pinv (x : Nat) : Nat := powMod x (secpP - 2) secpP

/-- An elliptic-curve point as used by `elliptic`: affine coordinates, or
`none` for the point at infinity. -/
abbrev RawPoint := Option (Nat × Nat)

/-- `(a - b) % m` computed in `Nat` (operands assumed `< m`-reduced mod `m`). -/
def submod (a b m : Nat) : Nat := (a + (m - b % m)) % m

/-- `elliptic` short-curve point doubling (`Point#dbl`): returns infinity when
`2y = 0`, otherwise the tangent-line formula with slope `3x²/(2y)`. -/
def ecDbl : RawPoint → RawPoint
  | none => none
  | some (x, y) =>
    if (y + y) % secpP = 0 then none
    else
      let l := 3 * x * x % secpP * pinv ((y + y) % secpP) % secpP
      let x3 := submod (l * l % secpP) ((x + x) % secpP) secpP
      let y3 := submod (l * submod x x3 secpP % secpP) y secpP
      some (x3, y3)

/-- `elliptic` short-curve point addition (`Point#add`): handles infinity,
doubling (`this.eq(p)`), vertical lines (same `x`), and the secant formula. -/
def ecAdd : RawPoint → RawPoint → RawPoint
  | none, q => q
  | some p, none => some p
  | some (x1, y1), some (x2, y2) =>
    if x1 = x2 ∧ y1 = y2 then ecDbl (some (x1, y1))
    else if x1 = x2 then none
    else
      let l := submod y1 y2 secpP * pinv (submod x1 x2 secpP) % secpP
      let x3 := submod (submod (l * l % secpP) x1 secpP) x2 secpP
      let y3 := submod (l * submod x1 x3 secpP % secpP) y1 secpP
      some (x3, y3)

/-- Fuel-driven double-and-add loop for scalar multiplication. -/
def ecMulAux : Nat → RawPoint → RawPoint → Nat → RawPoint
  | 0, acc, _, _ => acc
  | fuel+1, acc, base, k =>
    if k = 0 then acc
    else ecMulAux fuel (if k % 2 = 1 then ecAdd acc base else acc) (ecDbl base) (k / 2)

/-- Scalar multiplication `k·P` (`Point#mul`).  `elliptic` uses a NAF ladder;
any correct double-and-add computes the same group element, which is proved
against the Mathlib group law below.  Fuel 512 covers every scalar occurring
in the claims (`k < 2^512`). -/
def ecMul (P : RawPoint) (k : Nat) : RawPoint := ecMulAux 512 none P k

/-- The secp256k1 generator as a raw point (`curve.g`). -/
def rawG : RawPoint := some (gX, gY)

/-- `curve.curve.validate` (`ShortCurve#validate` in `elliptic`): the point at
infinity validates TRUE (`if (point.inf) return true;` in `short.js`); an
affine point validates iff it satisfies `y² = x³ + 7`. -/
def ecValidate : RawPoint → Bool
  | none => true
  | some (x, y) => y * y % secpP == (x * x * x + 7) % secpP

/-- `validatePublicKey` from the source (callers in the claims always pass a
point, so the string branch is not modelled). -/
def validatePublicKey (P : RawPoint) : Bool := ecValidate P

/-- `pointAdd` from the source: computes `point1.add(point2)` but substitutes
the generator whenever either argument fails validation. -/
def pointAdd (point1 point2 : RawPoint) : RawPoint :=
  let result := ecAdd point1 point2
  if (ecValidate point1 && ecValidate point2) = false then rawG
  else result

/-! ### Hex / byte / decimal string utilities (BN and Buffer behaviour) -/

/-- Lowercase hex digit for `d < 16`. -/
def hexDigitChar (d : Nat) : Char :=
  if d < 10 then Char.ofNat (48 + d) else Char.ofNat (87 + d)

/-- Hex digit value, accepting both cases (as `BN`/`Buffer` parsing does). -/
def hexCharVal (c : Char) : Option Nat :=
  let v := c.toNat
  if 48 ≤ v ∧ v ≤ 57 then some (v - 48)
  else if 97 ≤ v ∧ v ≤ 102 then some (v - 87)
  else if 65 ≤ v ∧ v ≤ 70 then some (v - 55)
  else none

/-- Two lowercase hex characters of a byte. -/
def byteToHex (b : Nat) : List Char := [hexDigitChar (b / 16 % 16), hexDigitChar (b % 16)]

/-- Lowercase hex string of a byte list (`Buffer#toString('hex')`). -/
def bytesToHex : List Nat → List Char
  | [] => []
  | b :: r => byteToHex b ++ bytesToHex r

/-- Big-endian byte list of fixed length `len` (`BN#toBuffer('be', len)`). -/
def toBytesBE : Nat → Nat → List Nat
  | 0, _ => []
  | len+1, v => toBytesBE len (v / 256) ++ [v % 256]

/-- Minimal big-endian hex digits of `v` (empty for `0`); fuel-driven. -/
def hexDigitsAux : Nat → Nat → List Char
  | 0, _ => []
  | fuel+1, v => if v = 0 then [] else hexDigitsAux fuel (v / 16) ++ [hexDigitChar (v % 16)]

/-- `BN#toString(16)`: minimal lowercase hex, `"0"` for zero. -/
def natToHexMin (v : Nat) : List Char :=
  if v = 0 then ['0'] else hexDigitsAux 512 v

/-- `BN#toString(16, w)` padding rule: left-pad with `'0'` until the length is
a (positive) multiple of `w`. -/
def padMod (w : Nat) (s : List Char) : List Char :=
  List.replicate ((w - s.length % w) % w) '0' ++ s

/-- Fold hex characters into a number, failing on a non-hex character. -/
def parseHexAux : List Char → Nat → Option Nat
  | [], acc => some acc
  | c :: r, acc =>
    match hexCharVal c with
    | none => none
    | some d => parseHexAux r (acc * 16 + d)

/-- `toBN('0x' + s)`: hex string to number, failing on invalid characters. -/
def parseHex (s : List Char) : Option Nat := parseHexAux s 0

/-- `Buffer.from(s, 'hex')`: consume hex-digit pairs, truncating at the first
invalid pair or odd tail. -/
def hexPairsToBytes : List Char → List Nat
  | a :: b :: r =>
    match hexCharVal a, hexCharVal b with
    | some x, some y => (16 * x + y) :: hexPairsToBytes r
    | _, _ => []
  | _ => []

/-- Strip a case-insensitive `0x`/`0X` PREFIX (the `/^0x/i` regex used in
`schnorrHash` and `toChecksumAddress`). -/
def stripHex0x : List Char → List Char
  | '0' :: 'x' :: rest => rest
  | '0' :: 'X' :: rest => rest
  | s => s

/-- JS `String#replace("0x", "")`: remove the FIRST occurrence of `"0x"`
anywhere in the string (used by `splitSignature`). -/
def replaceFirst0x : List Char → List Char
  | '0' :: 'x' :: rest => rest
  | c :: rest => c :: replaceFirst0x rest
  | [] => []

/-- Minimal decimal digits of `v` (empty for `0`); fuel-driven. -/
def decDigitsAux : Nat → Nat → List Char
  | 0, _ => []
  | fuel+1, v => if v = 0 then [] else decDigitsAux fuel (v / 10) ++ [Char.ofNat (48 + v % 10)]

/-- `BigInt#toString(10)`. -/
def natToDecStr (v : Nat) : List Char :=
  if v = 0 then ['0'] else decDigitsAux 512 v

/-- `BN#byteLength()`: bytes of the minimal big-endian encoding (0 for 0);
fuel-driven. -/
def byteLenAux : Nat → Nat → Nat
  | 0, _ => 0
  | fuel+1, v => if v = 0 then 0 else byteLenAux fuel (v / 256) + 1

/-- Minimal byte length of `v`. -/
def byteLen (v : Nat) : Nat := byteLenAux 64 v

/-- `bn2hex` from the source: `"0x" + num.toBuffer('be', byteLength).toString('hex')`.
`bn.js`'s `toArrayLike` computes `reqLength = length || Math.max(1, byteLength)`,
so with `byteLength` absent (`none`) — or the falsy `0` — the buffer has
`max 1 (byteLen num)` bytes: the minimal length, floored at ONE byte (`num = 0`
yields the single byte `00`, not an empty buffer).  The assertion `toArrayLike`
raises when an explicit length is smaller than `byteLength` is not modelled:
the source only ever calls `bn2hex` without a length argument. -/
def bn2hex (num : Nat) (byteLength : Option Nat) : List Char :=
  let reqLength :=
    match byteLength with
    | some l => if l = 0 then max 1 (byteLen num) else l
    | none => max 1 (byteLen num)
  '0' :: 'x' :: bytesToHex (toBytesBE reqLength num)

/-! ### The hash parameter and point serialization -/

/-- The `keccak256` primitive, abstracted: byte list to 256-bit value. -/
def HashFn := List Nat → Nat

/-- `publicKey.encode('hex').substr(2)` decoded back to bytes: the 64-byte
uncompressed `X ‖ Y` encoding (prefix byte `04` stripped).  `elliptic` THROWS
a TypeError when asked to encode the point at infinity; the `[]` default here
is inert padding that no theorem relies on — every statement below either
keeps the encoded points affine by construction (C1: `P`, `R` and the
recomputed commitment are nonzero multiples of `G`) or carries explicit
affineness hypotheses marking exactly where the program would throw (C5). -/
def encodePointBytes : RawPoint → List Nat
  | some (x, y) => toBytesBE 32 x ++ toBytesBE 32 y
  | none => []

/-- `getX()` (0 at infinity, where `elliptic` would throw; same caveat as
`encodePointBytes`). -/
def xCoord : RawPoint → Nat
  | some (x, _) => x
  | none => 0

/-- `getY()` (0 at infinity, where `elliptic` would fail). -/
def yCoord : RawPoint → Nat
  | some (_, y) => y
  | none => 0

/-- Map ASCII characters to their byte values (UTF-8 of hex strings). -/
def asciiBytes (s : List Char) : List Nat := s.map Char.toNat

/-- Keep `c` unless the hash nibble `h` is `≥ 8`, in which case uppercase it
(web3 `toChecksumAddress` casing rule). -/
def checksumCase : List Char → List Char → List Char
  | c :: cs, h :: hs =>
    (if 8 ≤ (hexCharVal h).getD 0 then c.toUpper else c) :: checksumCase cs hs
  | _, _ => []

/-- web3 `toChecksumAddress`: lowercase the body, keccak-hash its ASCII bytes,
and uppercase exactly the positions whose hash nibble is `≥ 8`. -/
def toChecksumAddress (H : HashFn) (address : List Char) : List Char :=
  let body := stripHex0x (address.map Char.toLower)
  let addressHash := bytesToHex (toBytesBE 32 (H (asciiBytes body)))
  '0' :: 'x' :: checksumCase body addressHash

/-- `pub2addr` from the source: checksummed address of the last 20 bytes of
the keccak hash of the uncompressed point encoding. -/
def pub2addr (H : HashFn) (publicKey : RawPoint) : List Char :=
  let pubHashHex := bytesToHex (toBytesBE 32 (H (encodePointBytes publicKey)))
  toChecksumAddress H ('0' :: 'x' :: pubHashHex.drop 24)

/-- The minimal public-key view of `pub2json`: x-coordinate as `0x`+64 hex
characters, y-parity as `"0"`/`"1"`. -/
structure PubJsonMin where
  x : List Char
  yParity : List Char
  deriving DecidableEq

/-- `pub2json(pubkey, minimal := true)`. -/
def pub2jsonMin (publicKey : RawPoint) : PubJsonMin where
  x := '0' :: 'x' :: bytesToHex (toBytesBE 32 (xCoord publicKey))
  yParity := [Char.ofNat (48 + yCoord publicKey % 2)]

/-! ### Schnorr engine -/

/-- A Schnorr signature: challenge `e` and response `s`. -/
structure Sig where
  e : Nat
  s : Nat
  deriving DecidableEq

/-- `BN#umod`: nonnegative residue of an `Int` by a positive modulus. -/
def jsUmod (a : Int) (m : Nat) : Nat := (a % (m : Int)).toNat

/-- `schnorrHash` from the source: keccak over
`X(P) ‖ parity(Y(P)) ‖ bytes(msg) ‖ bytes(address)` (both hex strings are
stripped of a case-insensitive `0x` prefix and decoded). -/
def schnorrHash (H : HashFn) (signingPublicKey : RawPoint)
    (nonceTimesGeneratorAddress : List Char) (msg : List Char) : Nat :=
  H (toBytesBE 32 (xCoord signingPublicKey)
     ++ [if yCoord signingPublicKey % 2 = 0 then 0 else 1]
     ++ hexPairsToBytes (stripHex0x msg)
     ++ hexPairsToBytes (stripHex0x nonceTimesGeneratorAddress))

/-- `schnorrSign` from the source: `e` is the raw challenge hash value,
`s = (k - d·e) umod n`. -/
def schnorrSign (H : HashFn) (signingShare : Nat) (signingPubKey : RawPoint)
    (nonceShare : Nat) (noncePublicKey : RawPoint) (msg : List Char) : Sig :=
  let nonceTimesGeneratorAddress := pub2addr H noncePublicKey
  let e := schnorrHash H signingPubKey nonceTimesGeneratorAddress msg
  let s := jsUmod ((nonceShare : Int) - (signingShare : Int) * (e : Int)) secpN
  { s := s, e := e }

/-- `schnorrVerify` from the source, point-signature entry: reject invalid
keys, reduce `s` mod `n`, recompute `R_v = s·G + e·P` through `pointAdd`,
and compare the recomputed challenge with `sig.e` by raw equality. -/
def schnorrVerify (H : HashFn) (signingPublicKey : RawPoint) (msg : List Char)
    (sig : Sig) : Bool :=
  if !validatePublicKey signingPublicKey then false
  else
    let s := sig.s % secpN
    let r_v := pointAdd (ecMul rawG s) (ecMul signingPublicKey sig.e)
    let nonceTimesGeneratorAddress := pub2addr H r_v
    let e_v := schnorrHash H signingPublicKey nonceTimesGeneratorAddress msg
    decide (e_v = sig.e)

/-- `stringifySignature`: `0x` + 64-padded hex of `e` + 64-padded hex of `s`. -/
def stringifySignature (sign : Sig) : List Char :=
  '0' :: 'x' :: (padMod 64 (natToHexMin sign.e) ++ padMod 64 (natToHexMin sign.s))

/-- `splitSignature`: remove the first `"0x"`, demand exactly 128 remaining
characters (else throw `invalid schnorr signature string`), split into two
64-character halves and parse each as hex (`toBN` throws on invalid hex). -/
def splitSignature (signature : List Char) : Except String Sig :=
  let bytes := replaceFirst0x signature
  if bytes.length ≠ 128 then .error "invalid schnorr signature string"
  else
    match parseHex (bytes.take 64), parseHex ((bytes.drop 64).take 64) with
    | some e, some s => .ok { e := e, s := s }
    | _, _ => .error "invalid hex character"

/-- `schnorrVerify` when handed a signature STRING: `splitSignature` runs
first and its exception propagates (there is no catch in the source). -/
def schnorrVerifyStr (H : HashFn) (signingPublicKey : RawPoint) (msg : List Char)
    (sigStr : List Char) : Except String Bool :=
  match splitSignature sigStr with
  | .error err => .error err
  | .ok sig => .ok (schnorrVerify H signingPublicKey msg sig)

/-! ### The `runMuonApp` pipeline -/

/-- One typed field of the signed payload (`{name, type, value}`); values are
modelled as their string representations. -/
structure SignParam where
  name : List Char
  ptype : List Char
  value : List Char
  deriving DecidableEq

/-- The `soliditySha3` primitive over an ordered typed field list,
abstracted. -/
def SolSha3 := List SignParam → Nat

/-- One entry of the response `signatures` array. -/
structure SigEntry where
  owner : List Char
  ownerPubKey : PubJsonMin
  signature : List Char
  deriving DecidableEq

/-- The response object built by `runMuonApp` (`data` fields inlined). -/
structure MuonResponse where
  reqId : Option (List Char)
  app : List Char
  appId : List Char
  method : List Char
  params : List Char
  timestamp : Nat
  signParams : Option (List SignParam)
  signatures : List SigEntry

/-- `runMuonApp` from the source.  External effects are parameters:
`H`/`SH3` the hash primitives, `available` the `moduleIsAvailable` probe,
`onRequest`/`signParamsF` the computation module, `sk` the node key
(`process.env.PRIVATE_KEY`), `ts` the epoch timestamp, `reqIdPriv` and
`nonceK` the two freshly generated private scalars. -/
def runMuonApp {α : Type} (H : HashFn) (SH3 : SolSha3) (available : Bool)
    (onRequest : MuonResponse → α) (signParamsF : MuonResponse → α → List SignParam)
    (sk ts reqIdPriv nonceK : Nat) (app method params : List Char) :
    Except String MuonResponse :=
  if !available then .error "App not found on optimistic node"
  else
    let appId := natToDecStr (H (asciiBytes (app ++ ".js".toList)))
    let response0 : MuonResponse :=
      { reqId := none, app := app, appId := appId, method := method,
        params := params, timestamp := ts, signParams := none, signatures := [] }
    let onRequestResult := onRequest response0
    let appSignParams := signParamsF response0 onRequestResult
    let _hashSecurityParams := SH3 appSignParams
    let reqId := '0' :: 'x' :: padMod 2 (natToHexMin reqIdPriv)
    let signParamsList :=
      { name := "appId".toList, ptype := "uint256".toList, value := appId } ::
      { name := "reqId".toList, ptype := "uint256".toList, value := reqId } ::
      appSignParams
    let hashToBeSigned := SH3 signParamsList
    let verifyingPubKey := ecMul rawG sk
    let sig := schnorrSign H sk verifyingPubKey nonceK (ecMul rawG nonceK)
      ('0' :: 'x' :: bytesToHex (toBytesBE 32 hashToBeSigned))
    .ok { response0 with
          reqId := some reqId,
          signParams := some signParamsList,
          signatures := [{ owner := pub2addr H verifyingPubKey,
                           ownerPubKey := pub2jsonMin verifyingPubKey,
                           signature := bn2hex sig.s none }] }

/-! ## The group order annihilates the generator (kernel computation) -/

set_option maxHeartbeats 80000000 in
/-- The kernel computation `n · G = ∞` on the raw double-and-add loop. -/
theorem ecMul_rawG_secpN : ecMul rawG secpN = none := by decide

/-! ## Basic lemmas about the byte / hex utilities -/

theorem toBytesBE_length (len : Nat) : ∀ v, (toBytesBE len v).length = len := by
  induction len with
  | zero => intro v; rfl
  | succ l ih => intro v; simp [toBytesBE, ih]

theorem bytesToHex_length (bs : List Nat) : (bytesToHex bs).length = 2 * bs.length := by
  induction bs with
  | nil => rfl
  | cons b r ih => simp [bytesToHex, byteToHex, ih]; ring

theorem bn2hex_none_length (v : Nat) :
    (bn2hex v none).length = 2 + 2 * max 1 (byteLen v) := by
  simp [bn2hex, bytesToHex_length, toBytesBE_length]
  omega

theorem parseHexAux_append (l1 l2 : List Char) (acc : Nat) :
    parseHexAux (l1 ++ l2) acc =
      match parseHexAux l1 acc with
      | some a => parseHexAux l2 a
      | none => none := by
  induction l1 generalizing acc with
  | nil => rfl
  | cons c r ih =>
    simp only [List.cons_append, parseHexAux]
    cases hexCharVal c with
    | none => rfl
    | some d => exact ih _

theorem hexCharVal_hexDigitChar (d : Nat) (h : d < 16) :
    hexCharVal (hexDigitChar d) = some d := by
  interval_cases d <;> decide

theorem parseHexAux_hexDigitsAux (fuel : Nat) :
    ∀ v acc, v < 16 ^ fuel →
      parseHexAux (hexDigitsAux fuel v) acc =
        some (acc * 16 ^ (hexDigitsAux fuel v).length + v) := by
  induction fuel with
  | zero =>
    intro v acc hv
    interval_cases v
    simp [hexDigitsAux, parseHexAux]
  | succ f ih =>
    intro v acc hv
    by_cases h0 : v = 0
    · subst h0; simp [hexDigitsAux, parseHexAux]
    · have hdiv : v / 16 < 16 ^ f := by
        rw [Nat.div_lt_iff_lt_mul (by norm_num)]
        calc v < 16 ^ (f + 1) := hv
        _ = 16 ^ f * 16 := by rw [pow_succ]
      simp only [hexDigitsAux, if_neg h0]
      rw [parseHexAux_append, ih _ _ hdiv]
      simp only [parseHexAux, hexCharVal_hexDigitChar (v % 16) (Nat.mod_lt _ (by norm_num))]
      simp only [List.length_append, List.length_singleton]
      congr 1
      have hvm := Nat.div_add_mod v 16
      rw [pow_succ]
      ring_nf
      omega

theorem hexDigitsAux_length_le (fuel : Nat) :
    ∀ l v, v < 16 ^ l → (hexDigitsAux fuel v).length ≤ l := by
  induction fuel with
  | zero => intro l v _; simp [hexDigitsAux]
  | succ f ih =>
    intro l v hv
    by_cases h0 : v = 0
    · subst h0; simp [hexDigitsAux]
    · cases l with
      | zero => simp at hv; omega
      | succ l' =>
        have hdiv : v / 16 < 16 ^ l' := by
          rw [Nat.div_lt_iff_lt_mul (by norm_num)]
          calc v < 16 ^ (l' + 1) := hv
          _ = 16 ^ l' * 16 := by rw [pow_succ]
        simp only [hexDigitsAux, if_neg h0, List.length_append, List.length_singleton]
        have := ih l' (v / 16) hdiv
        omega

theorem hexDigitsAux_length_pos (fuel v : Nat) (h0 : v ≠ 0) (hf : 1 ≤ fuel) :
    1 ≤ (hexDigitsAux fuel v).length := by
  cases fuel with
  | zero => omega
  | succ f => simp [hexDigitsAux, if_neg h0]

theorem parseHexAux_replicate_zero (k : Nat) : ∀ acc,
    parseHexAux (List.replicate k '0') acc = some (acc * 16 ^ k) := by
  induction k with
  | zero => intro acc; simp [parseHexAux]
  | succ k ih =>
    intro acc
    have h0 : hexCharVal '0' = some 0 := by decide
    simp only [List.replicate, parseHexAux, h0]
    rw [ih]
    congr 1
    rw [pow_succ]
    ring

theorem parseHex_padMod (w : Nat) (s : List Char) :
    parseHex (padMod w s) = parseHex s := by
  unfold parseHex padMod
  rw [parseHexAux_append, parseHexAux_replicate_zero]
  simp

theorem padMod_length (w : Nat) (s : List Char)
    (h1 : 1 ≤ s.length) (h2 : s.length ≤ w) :
    (padMod w s).length = w := by
  simp only [padMod, List.length_append, List.length_replicate]
  rcases eq_or_lt_of_le h2 with h | h
  · rw [h, Nat.mod_self]; simp [Nat.sub_zero, Nat.mod_self]
  · rw [Nat.mod_eq_of_lt h, Nat.mod_eq_of_lt (by omega)]
    omega

theorem natToHexMin_length_pos (v : Nat) : 1 ≤ (natToHexMin v).length := by
  unfold natToHexMin
  by_cases h0 : v = 0
  · simp [h0]
  · rw [if_neg h0]; exact hexDigitsAux_length_pos 512 v h0 (by norm_num)

theorem natToHexMin_length_le (v l : Nat) (hv : v < 16 ^ l) (hl : 1 ≤ l) :
    (natToHexMin v).length ≤ l := by
  unfold natToHexMin
  by_cases h0 : v = 0
  · simp [h0]; omega
  · rw [if_neg h0]; exact hexDigitsAux_length_le 512 l v hv

theorem parseHex_natToHexMin (v : Nat) (h : v < 16 ^ 512) :
    parseHex (natToHexMin v) = some v := by
  unfold natToHexMin parseHex
  by_cases h0 : v = 0
  · subst h0; decide
  · rw [if_neg h0, parseHexAux_hexDigitsAux 512 v 0 h]
    simp

theorem take_append_of_length (l1 l2 : List Char) (n : Nat) (h : l1.length = n) :
    (l1 ++ l2).take n = l1 := by
  subst h; exact List.take_left _ _

theorem drop_append_of_length (l1 l2 : List Char) (n : Nat) (h : l1.length = n) :
    (l1 ++ l2).drop n = l2 := by
  subst h; exact List.drop_left _ _

theorem take_all_of_length (l : List Char) (n : Nat) (h : l.length = n) :
    l.take n = l := by
  subst h; simp

/-! ## Claim C6: signature codec round trip -/

/-- C6. For every signature pair `(e, s)` with `e` and `s` in `[0, n)`,
`splitSignature (stringifySignature {e, s})` returns exactly `(e, s)`:
decoding is a left inverse of encoding on valid signatures. -/
theorem c6_codec_roundtrip (e s : Nat) (he : e < secpN) (hs : s < secpN) :
    splitSignature (stringifySignature { e := e, s := s }) =
      Except.ok { e := e, s := s } := by
  have h16 : secpN ≤ 16 ^ 64 := by norm_num [secpN]
  have he64 : e < 16 ^ 64 := lt_of_lt_of_le he h16
  have hs64 : s < 16 ^ 64 := lt_of_lt_of_le hs h16
  have he512 : e < 16 ^ 512 := lt_of_lt_of_le he64 (Nat.pow_le_pow_right (by norm_num) (by norm_num))
  have hs512 : s < 16 ^ 512 := lt_of_lt_of_le hs64 (Nat.pow_le_pow_right (by norm_num) (by norm_num))
  have hE : (padMod 64 (natToHexMin e)).length = 64 :=
    padMod_length 64 _ (natToHexMin_length_pos e) (natToHexMin_length_le e 64 he64 (by norm_num))
  have hS : (padMod 64 (natToHexMin s)).length = 64 :=
    padMod_length 64 _ (natToHexMin_length_pos s) (natToHexMin_length_le s 64 hs64 (by norm_num))
  have hrep : replaceFirst0x (stringifySignature { e := e, s := s }) =
      padMod 64 (natToHexMin e) ++ padMod 64 (natToHexMin s) := rfl
  have hlen : (padMod 64 (natToHexMin e) ++ padMod 64 (natToHexMin s)).length = 128 := by
    rw [List.length_append, hE, hS]
  have htake : (padMod 64 (natToHexMin e) ++ padMod 64 (natToHexMin s)).take 64 =
      padMod 64 (natToHexMin e) := take_append_of_length _ _ _ hE
  have hdrop : (padMod 64 (natToHexMin e) ++ padMod 64 (natToHexMin s)).drop 64 =
      padMod 64 (natToHexMin s) := drop_append_of_length _ _ _ hE
  have htake2 : (padMod 64 (natToHexMin s)).take 64 = padMod 64 (natToHexMin s) :=
    take_all_of_length _ _ hS
  have hpe : parseHex (padMod 64 (natToHexMin e)) = some e := by
    rw [parseHex_padMod, parseHex_natToHexMin e he512]
  have hps : parseHex (padMod 64 (natToHexMin s)) = some s := by
    rw [parseHex_padMod, parseHex_natToHexMin s hs512]
  unfold splitSignature
  rw [hrep, if_neg (by rw [hlen]; trivial), htake, hdrop, htake2, hpe, hps]

/-- C6 witness at a concrete signature. -/
theorem c6_codec_roundtrip_witness :
    (1 : Nat) < secpN ∧ (2 : Nat) < secpN ∧
    splitSignature (stringifySignature { e := 1, s := 2 }) = Except.ok { e := 1, s := 2 } :=
  ⟨by norm_num [secpN], by norm_num [secpN],
    c6_codec_roundtrip 1 2 (by norm_num [secpN]) (by norm_num [secpN])⟩

/-! ## Claim C7: splitSignature error behaviour -/

/-- C7 counterexample.  The input `"00x" ++ 127·'0'` does not start with a
`0x` prefix, so its length after stripping the prefix is `130 ≠ 128`, and
the claim as stated demands a `MalformedSignature` failure; but the code
removes the FIRST occurrence of `"0x"` (here at index 1), leaving 128
characters, and succeeds with `(0, 0)`. -/
theorem c7_counterexample :
    (stripHex0x ('0' :: '0' :: 'x' :: List.replicate 127 '0')).length ≠ 128 ∧
    splitSignature ('0' :: '0' :: 'x' :: List.replicate 127 '0') =
      Except.ok { e := 0, s := 0 } := by
  constructor
  · decide
  · rfl

/-- C7 (amended).  `splitSignature` fails with the `MalformedSignature` error
exactly when the string's length after removing the first occurrence of
`"0x"` (anywhere, not only as a prefix) differs from 128; when that length
is 128 and both 64-character halves parse as hex, it returns the two parsed
scalars (a non-hex character in a half is a distinct `toBN` error). -/
theorem c7_split_error_iff (str : List Char) :
    (splitSignature str = Except.error "invalid schnorr signature string" ↔
      (replaceFirst0x str).length ≠ 128) ∧
    (∀ ev sv, (replaceFirst0x str).length = 128 →
      parseHex ((replaceFirst0x str).take 64) = some ev →
      parseHex (((replaceFirst0x str).drop 64).take 64) = some sv →
      splitSignature str = Except.ok { e := ev, s := sv }) := by
  unfold splitSignature
  by_cases hlen : (replaceFirst0x str).length = 128
  · rw [if_neg (by rw [hlen]; trivial)]
    constructor
    · constructor
      · intro h
        exfalso
        cases hpe : parseHex ((replaceFirst0x str).take 64) with
        | none => rw [hpe] at h; cases hps : parseHex (((replaceFirst0x str).drop 64).take 64) <;>
            simp [hps] at h
        | some a =>
          rw [hpe] at h
          cases hps : parseHex (((replaceFirst0x str).drop 64).take 64) with
          | none => simp [hps] at h
          | some b => simp [hps] at h
      · intro h; exact absurd hlen h
    · intro ev sv _ hpe hps
      rw [hpe, hps]
  · rw [if_pos (by exact hlen)]
    exact ⟨⟨fun _ => hlen, fun _ => rfl⟩, fun ev sv h128 => absurd h128 hlen⟩

/-- C7 witness: a well-formed 130-character signature string decodes. -/
theorem c7_split_error_iff_witness :
    splitSignature ('0' :: 'x' :: List.replicate 128 '0') = Except.ok { e := 0, s := 0 } :=
  (c7_split_error_iff ('0' :: 'x' :: List.replicate 128 '0')).2 0 0
    (by decide) (by rfl) (by rfl)

/-! ## Claim C2: schnorrVerify on a malformed signature string -/

/-- C2 counterexample.  At the valid public key `G` and the empty signature
string (length `0 ≠ 128` after stripping), the claim as stated demands
`schnorrVerify` return `false`; the code instead propagates the
`MalformedSignature` exception thrown by `splitSignature` (there is no
try/catch around it). -/
theorem c2_counterexample :
    validatePublicKey rawG = true ∧
    (replaceFirst0x ([] : List Char)).length ≠ 128 ∧
    schnorrVerifyStr (fun _ => 0) rawG [] [] =
      Except.error "invalid schnorr signature string" := by
  refine ⟨by decide, by decide, ?_⟩
  rfl

/-- C2 (amended).  For every public key, message and signature string whose
length after removing the first `"0x"` occurrence is not 128,
`schnorrVerify` raises (propagates) the `MalformedSignature` error rather
than returning `false`. -/
theorem c2_verify_string_error (H : HashFn) (P : RawPoint) (msg sigStr : List Char)
    (hlen : (replaceFirst0x sigStr).length ≠ 128) :
    schnorrVerifyStr H P msg sigStr = Except.error "invalid schnorr signature string" := by
  unfold schnorrVerifyStr
  rw [((c7_split_error_iff sigStr).1).2 hlen]

/-- C2 witness at a concrete malformed string. -/
theorem c2_verify_string_error_witness :
    (replaceFirst0x ('0' :: 'x' :: 'a' :: [])).length ≠ 128 ∧
    schnorrVerifyStr (fun _ => 0) rawG [] ('0' :: 'x' :: 'a' :: []) =
      Except.error "invalid schnorr signature string" :=
  ⟨by decide, c2_verify_string_error (fun _ => 0) rawG [] _ (by decide)⟩

/-! ## Claim C4: the challenge returned by schnorrSign -/

/-- C4 counterexample.  The code does not reduce the challenge hash mod `n`:
with a (256-bit-representable) challenge-hash value equal to `n`, the
returned `e` is `n` itself, outside `[0, n)`. -/
theorem c4_counterexample :
    ¬ (schnorrSign (fun _ => secpN) 1 rawG 1 rawG []).e < secpN := by
  have h : (schnorrSign (fun _ => secpN) 1 rawG 1 rawG []).e = secpN := rfl
  rw [h]
  omega

/-- C4 (amended).  The challenge component returned by `schnorrSign` is the
RAW challenge-hash value `schnorrHash(P, addr(R), m)` with no mod-`n`
reduction; it lies below `2^256` whenever the hash output does, but not
necessarily in `[0, n)`. -/
theorem c4_sign_challenge (H : HashFn) (d : Nat) (P : RawPoint) (k : Nat)
    (R : RawPoint) (m : List Char) (hH : ∀ b, H b < 2 ^ 256) :
    (schnorrSign H d P k R m).e = schnorrHash H P (pub2addr H R) m ∧
    (schnorrSign H d P k R m).e < 2 ^ 256 :=
  ⟨rfl, hH _⟩

/-- C4 witness at a concrete signing call. -/
theorem c4_sign_challenge_witness :
    (schnorrSign (fun _ => 0) 1 rawG 1 rawG []).e =
      schnorrHash (fun _ => 0) rawG (pub2addr (fun _ => 0) rawG) [] ∧
    (schnorrSign (fun _ => 0) 1 rawG 1 rawG []).e < 2 ^ 256 :=
  c4_sign_challenge (fun _ => 0) 1 rawG 1 rawG [] (fun _ => by norm_num)

/-! ## Claim C5: the final comparison in schnorrVerify -/

/-- C5 counterexample.  With the challenge hash recomputing to `0` and a
supplied signature `{e = n, s = 1}` — `e` congruent to `0` mod `n` but not
equal to it — the claim as stated demands `true`; the code compares raw
integers and returns `false`.  The run is crash-free: the recomputed
commitment `1·G + n·G = G + ∞` is the affine generator (third conjunct),
so `pub2addr` does not throw. -/
theorem c5_counterexample :
    schnorrVerify (fun _ => 0) rawG [] { e := secpN, s := 1 } = false ∧
    secpN % secpN = 0 % secpN ∧
    pointAdd (ecMul rawG (1 % secpN)) (ecMul rawG secpN) = rawG := by
  refine ⟨by decide, by decide, ?_⟩
  have h1 : ecMul rawG (1 % secpN) = rawG := by decide
  rw [h1, ecMul_rawG_secpN]
  decide

/-- C5 (amended).  For every valid AFFINE public key, message and signature
whose recomputed commitment point `s·G + e·P` is also affine (when `P` or
that point is the point at infinity the program does not return a boolean:
it throws in `getX` / `pub2addr`), `schnorrVerify` returns `true` if and
only if the recomputed challenge `e_v` equals the supplied `e` as RAW
integers (`BN#eq`), not merely as scalars mod `n`. -/
theorem c5_verify_raw_equality (H : HashFn) (P : RawPoint) (msg : List Char)
    (sig : Sig) (hP : validatePublicKey P = true) (_hPa : P ≠ none)
    (_hrv : pointAdd (ecMul rawG (sig.s % secpN)) (ecMul P sig.e) ≠ none) :
    (schnorrVerify H P msg sig = true ↔
      schnorrHash H P
        (pub2addr H (pointAdd (ecMul rawG (sig.s % secpN)) (ecMul P sig.e))) msg
        = sig.e) := by
  unfold schnorrVerify
  rw [hP]
  simp

/-- C5 witness at a concrete verification call (commitment `0·G + 1·G = G`,
affine). -/
theorem c5_verify_raw_equality_witness :
    validatePublicKey rawG = true ∧ rawG ≠ (none : RawPoint) ∧
    pointAdd (ecMul rawG ((0 : Nat) % secpN)) (ecMul rawG 1) ≠ none ∧
    (schnorrVerify (fun _ => 1) rawG [] { e := 1, s := 0 } = true ↔
      schnorrHash (fun _ => 1) rawG
        (pub2addr (fun _ => 1)
          (pointAdd (ecMul rawG ((0 : Nat) % secpN)) (ecMul rawG 1))) []
        = 1) :=
  ⟨by decide, by decide, by decide,
    c5_verify_raw_equality (fun _ => 1) rawG [] { e := 1, s := 0 } (by decide)
      (by decide) (by decide)⟩

/-! ## Claim C9: mod-n malleability of the response scalar at verify -/

theorem schnorrVerify_s_mod (H : HashFn) (P : RawPoint) (msg : List Char) (e s : Nat) :
    schnorrVerify H P msg { e := e, s := s + secpN } =
      schnorrVerify H P msg { e := e, s := s } := by
  unfold schnorrVerify
  rw [Nat.add_mod_right]

/-- C9. `schnorrVerify` reduces the supplied `s` mod `n` before use, so a
signature accepted at `s` is also accepted at `s + n`: the response scalar
is malleable by multiples of `n` at the verify interface. -/
theorem c9_s_malleable (H : HashFn) (P : RawPoint) (msg : List Char) (e s : Nat)
    (h : schnorrVerify H P msg { e := e, s := s } = true) :
    schnorrVerify H P msg { e := e, s := s + secpN } = true := by
  rw [schnorrVerify_s_mod]
  exact h

/-- C9 witness at a concrete accepted signature. -/
theorem c9_s_malleable_witness :
    schnorrVerify (fun _ => 0) rawG [] { e := 0, s := 0 } = true ∧
    schnorrVerify (fun _ => 0) rawG [] { e := 0, s := 0 + secpN } = true :=
  ⟨by decide, c9_s_malleable (fun _ => 0) rawG [] 0 0 (by decide)⟩

/-! ## Claim C8: order of signed fields and the signed hash -/

/-- C8. For every resolvable computation module and request, the ordered
signed-field list of `runMuonApp`'s response is exactly the typed `appId`
and `reqId` fields followed by the module's own described fields in their
original order, and the hash that is signed (the message fed to
`schnorrSign`, whose `s` is the emitted signature) is the `soliditySha3`
of this full ordered list. -/
theorem c8_signed_fields {α : Type} (H : HashFn) (SH3 : SolSha3)
    (onRequest : MuonResponse → α) (signParamsF : MuonResponse → α → List SignParam)
    (sk ts reqIdPriv nonceK : Nat) (app method params : List Char)
    (response0 : MuonResponse) (fields : List SignParam)
    (h0 : response0 =
      { reqId := none, app := app,
        appId := natToDecStr (H (asciiBytes (app ++ ".js".toList))),
        method := method, params := params, timestamp := ts,
        signParams := none, signatures := [] })
    (hf : fields =
      { name := "appId".toList, ptype := "uint256".toList,
        value := natToDecStr (H (asciiBytes (app ++ ".js".toList))) } ::
      { name := "reqId".toList, ptype := "uint256".toList,
        value := '0' :: 'x' :: padMod 2 (natToHexMin reqIdPriv) } ::
      signParamsF response0 (onRequest response0)) :
    ∃ resp : MuonResponse,
      runMuonApp H SH3 true onRequest signParamsF sk ts reqIdPriv nonceK app method params
        = Except.ok resp ∧
      resp.signParams = some fields ∧
      resp.signatures.map (fun en => en.signature) =
        [bn2hex (schnorrSign H sk (ecMul rawG sk) nonceK (ecMul rawG nonceK)
          ('0' :: 'x' :: bytesToHex (toBytesBE 32 (SH3 fields)))).s none] := by
  subst h0
  subst hf
  exact ⟨_, rfl, rfl, rfl⟩

/-- C8 witness at a concrete module and request. -/
theorem c8_signed_fields_witness :
    ∃ resp : MuonResponse,
      runMuonApp (fun _ => 0) (fun _ => 0) true (fun _ => ()) (fun _ _ => [])
        1 0 1 5 "a".toList "m".toList [] = Except.ok resp ∧
      resp.signParams = some (
        { name := "appId".toList, ptype := "uint256".toList,
          value := natToDecStr ((fun (_ : List Nat) => (0 : Nat)) (asciiBytes ("a".toList ++ ".js".toList))) } ::
        { name := "reqId".toList, ptype := "uint256".toList,
          value := '0' :: 'x' :: padMod 2 (natToHexMin 1) } ::
        (fun (_ : MuonResponse) (_ : Unit) => ([] : List SignParam))
          { reqId := none, app := "a".toList,
            appId := natToDecStr ((fun (_ : List Nat) => (0 : Nat)) (asciiBytes ("a".toList ++ ".js".toList))),
            method := "m".toList, params := [], timestamp := 0,
            signParams := none, signatures := [] }
          ((fun (_ : MuonResponse) => ())
            { reqId := none, app := "a".toList,
              appId := natToDecStr ((fun (_ : List Nat) => (0 : Nat)) (asciiBytes ("a".toList ++ ".js".toList))),
              method := "m".toList, params := [], timestamp := 0,
              signParams := none, signatures := [] })) ∧
      resp.signatures.map (fun en => en.signature) =
        [bn2hex (schnorrSign (fun _ => 0) 1 (ecMul rawG 1) 5 (ecMul rawG 5)
          ('0' :: 'x' :: bytesToHex (toBytesBE 32
            ((fun (_ : List SignParam) => (0 : Nat))
              ({ name := "appId".toList, ptype := "uint256".toList,
                 value := natToDecStr ((fun (_ : List Nat) => (0 : Nat)) (asciiBytes ("a".toList ++ ".js".toList))) } ::
               { name := "reqId".toList, ptype := "uint256".toList,
                 value := '0' :: 'x' :: padMod 2 (natToHexMin 1) } ::
               []))))).s none] :=
  c8_signed_fields (fun _ => 0) (fun _ => 0) (fun _ => ()) (fun _ _ => [])
    1 0 1 5 "a".toList "m".toList [] _ _ rfl rfl

/-! ## Claim C10: the emitted signature field is minimal-length hex of s -/

/-- C10 counterexample to the 'minimal-length hex' wording.  At a run whose
response scalar is `s = 0` (challenge hash constantly `2`, `sk = 1`,
`nonceK = 2`, so `s = (2 - 1·2) mod n = 0`; the commitment `2·G` and key
`1·G` are affine, so the run is crash-free), `bn.js`'s `toArrayLike` floor
`reqLength = length || Math.max(1, byteLength)` makes the program emit
`"0x00"` — 4 characters — while the minimal big-endian encoding of `0` is
empty (`byteLen 0 = 0`, so a minimal-length field would be the 2-character
`"0x"`). -/
theorem c10_counterexample :
    (runMuonApp (fun _ => 2) (fun _ => 0) true (fun _ => ()) (fun _ _ => [])
        1 0 1 2 "a".toList "m".toList []).map
          (fun r => r.signatures.map (fun en => en.signature))
      = Except.ok [bn2hex 0 none] ∧
    bn2hex 0 none = ['0', 'x', '0', '0'] ∧
    (bn2hex 0 none).length ≠ 2 + 2 * byteLen 0 := by
  refine ⟨rfl, by decide, by decide⟩

/-- C10 (amended). The `signature` field emitted in `runMuonApp`'s response
encodes only the `s` scalar via `bn2hex` with no byte-length argument: its
length is `2 + 2·max(1, byteLen s)` — the minimal big-endian hex, floored
at one byte by `bn.js` (`s = 0` emits `"0x00"`) — so whenever the minimal
encoding of `s` is shorter than 32 bytes the field has fewer than 66
characters — not a fixed-width 32-byte encoding. -/
theorem c10_signature_minimal_hex {α : Type} (H : HashFn) (SH3 : SolSha3)
    (onRequest : MuonResponse → α) (signParamsF : MuonResponse → α → List SignParam)
    (sk ts reqIdPriv nonceK : Nat) (app method params : List Char)
    (response0 : MuonResponse) (sVal : Nat)
    (h0 : response0 =
      { reqId := none, app := app,
        appId := natToDecStr (H (asciiBytes (app ++ ".js".toList))),
        method := method, params := params, timestamp := ts,
        signParams := none, signatures := [] })
    (hs : sVal = (schnorrSign H sk (ecMul rawG sk) nonceK (ecMul rawG nonceK)
      ('0' :: 'x' :: bytesToHex (toBytesBE 32 (SH3 (
        { name := "appId".toList, ptype := "uint256".toList,
          value := natToDecStr (H (asciiBytes (app ++ ".js".toList))) } ::
        { name := "reqId".toList, ptype := "uint256".toList,
          value := '0' :: 'x' :: padMod 2 (natToHexMin reqIdPriv) } ::
        signParamsF response0 (onRequest response0)))))).s)
    (hshort : byteLen sVal < 32) :
    (runMuonApp H SH3 true onRequest signParamsF sk ts reqIdPriv nonceK app method
        params).map (fun r => r.signatures.map (fun en => en.signature))
      = Except.ok [bn2hex sVal none] ∧
    (bn2hex sVal none).length = 2 + 2 * max 1 (byteLen sVal) ∧
    (bn2hex sVal none).length < 66 := by
  subst h0
  subst hs
  refine ⟨rfl, bn2hex_none_length _, ?_⟩
  rw [bn2hex_none_length _]
  omega

/-- C10 witness at a concrete run whose response scalar is one byte. -/
theorem c10_signature_minimal_hex_witness :
    byteLen 5 < 32 ∧
    ((runMuonApp (fun _ => 0) (fun _ => 0) true (fun _ => ()) (fun _ _ => [])
        1 0 1 5 "a".toList "m".toList []).map
          (fun r => r.signatures.map (fun en => en.signature))
      = Except.ok [bn2hex 5 none] ∧
    (bn2hex 5 none).length = 2 + 2 * max 1 (byteLen 5) ∧
    (bn2hex 5 none).length < 66) :=
  ⟨by decide,
    c10_signature_minimal_hex (fun _ => 0) (fun _ => 0) (fun _ => ()) (fun _ _ => [])
      1 0 1 5 "a".toList "m".toList [] _ 5 rfl (by rfl) (by decide)⟩

/-! ## Modular exponentiation is correct -/

theorem powModAux_correct (m : Nat) : ∀ fuel e b acc, e < 2 ^ fuel →
    powModAux fuel (b % m) e m (acc % m) = acc * b ^ e % m := by
  intro fuel
  induction fuel with
  | zero =>
    intro e b acc he
    interval_cases e
    simp [powModAux]
  | succ f ih =>
    intro e b acc he
    by_cases h0 : e = 0
    · subst h0; simp [powModAux]
    · have hlt : e / 2 < 2 ^ f := by
        rw [pow_succ] at he
        omega
      have hb : b % m * (b % m) % m = b * b % m := (Nat.mul_mod b b m).symm
      have hacc : acc % m * (b % m) % m = acc * b % m := (Nat.mul_mod acc b m).symm
      rw [show powModAux (f + 1) (b % m) e m (acc % m)
            = powModAux f (b % m * (b % m) % m) (e / 2) m
                (if e % 2 = 1 then acc % m * (b % m) % m else acc % m) by
          simp [powModAux, h0]]
      rcases Nat.mod_two_eq_zero_or_one e with hpar | hpar
      · rw [if_neg (by omega), hb, ih (e / 2) (b * b) acc hlt]
        have hsplit : 2 * (e / 2) = e := by omega
        congr 1
        calc acc * (b * b) ^ (e / 2) = acc * (b ^ 2) ^ (e / 2) := by rw [pow_two]
        _ = acc * b ^ (2 * (e / 2)) := by rw [← pow_mul]
        _ = acc * b ^ e := by rw [hsplit]
      · rw [if_pos hpar, hb, hacc, ih (e / 2) (b * b) (acc * b) hlt]
        have hsplit : 2 * (e / 2) + 1 = e := by omega
        congr 1
        calc acc * b * (b * b) ^ (e / 2) = acc * ((b ^ 2) ^ (e / 2) * b) := by
              rw [pow_two]; ring
        _ = acc * (b ^ (2 * (e / 2)) * b) := by rw [← pow_mul]
        _ = acc * b ^ (2 * (e / 2) + 1) := by rw [pow_succ]
        _ = acc * b ^ e := by rw [hsplit]

theorem powMod_correct (b e m : Nat) (he : e < 2 ^ 512) : powMod b e m = b ^ e % m := by
  have h := powModAux_correct m 512 e b 1 he
  rw [one_mul] at h
  exact h

/-! ## Primality via Lucas / Pratt certificates -/

theorem zmod_pow_eq_of_powMod (q a e : Nat) (he : e < 2 ^ 512)
    (h : powMod a e q = 1 % q) : ((a : ZMod q)) ^ e = 1 := by
  have hc : ((a ^ e : ℕ) : ZMod q) = ((1 : ℕ) : ZMod q) := by
    rw [ZMod.natCast_eq_natCast_iff', ← powMod_correct a e q he, h]
  push_cast at hc
  exact hc

theorem zmod_pow_ne_of_powMod (q a e : Nat) (he : e < 2 ^ 512)
    (h : powMod a e q ≠ 1 % q) : ((a : ZMod q)) ^ e ≠ 1 := by
  intro hcon
  apply h
  rw [powMod_correct a e q he, ← ZMod.natCast_eq_natCast_iff']
  push_cast
  exact hcon

/-- Pratt / Lucas certificate checker: `a` has order `N - 1` modulo `N`,
certified by the full prime factor list `ps` of `N - 1` (with
multiplicity) and `powMod` computations. -/
theorem pratt_cert (N a : Nat) (ps : List Nat) (hsz : N - 1 < 2 ^ 512)
    (hprod : N - 1 = ps.prod)
    (hprimes : ∀ r ∈ ps, r.Prime)
    (hpow : powMod a (N - 1) N = 1 % N)
    (hd : ∀ r ∈ ps, powMod a ((N - 1) / r) N ≠ 1 % N) :
    N.Prime := by
  apply lucas_primality N ((a : ℕ) : ZMod N)
  · exact zmod_pow_eq_of_powMod N a (N - 1) hsz hpow
  · intro q hq hdvd
    have hmem : q ∈ ps := by
      apply mem_list_primes_of_dvd_prod hq.prime
      · intro r hr; exact (hprimes r hr).prime
      · rw [← hprod]; exact hdvd
    exact zmod_pow_ne_of_powMod N a ((N - 1) / q)
      (lt_of_le_of_lt (Nat.div_le_self _ _) hsz) (hd q hmem)

theorem prime_1627771 : Nat.Prime 1627771 := by
  apply pratt_cert 1627771 3 [2, 3, 5, 29, 1871]
  · decide
  · decide
  · intro r hr
    simp only [List.mem_cons, List.not_mem_nil, or_false] at hr
    rcases hr with rfl | rfl | rfl | rfl | rfl
    · norm_num
    · norm_num
    · norm_num
    · norm_num
    · norm_num
  · decide
  · decide


theorem prime_1206781 : Nat.Prime 1206781 := by
  apply pratt_cert 1206781 10 [2, 2, 3, 5, 20113]
  · decide
  · decide
  · intro r hr
    simp only [List.mem_cons, List.not_mem_nil, or_false] at hr
    rcases hr with rfl | rfl | rfl | rfl | rfl
    · norm_num
    · norm_num
    · norm_num
    · norm_num
    · norm_num
  · decide
  · decide


theorem prime_4681609 : Nat.Prime 4681609 := by
  apply pratt_cert 4681609 23 [2, 2, 2, 3, 97, 2011]
  · decide
  · decide
  · intro r hr
    simp only [List.mem_cons, List.not_mem_nil, or_false] at hr
    rcases hr with rfl | rfl | rfl | rfl | rfl | rfl
    · norm_num
    · norm_num
    · norm_num
    · norm_num
    · norm_num
    · norm_num
  · decide
  · decide


theorem prime_7240687 : Nat.Prime 7240687 := by
  apply pratt_cert 7240687 3 [2, 3, 1206781]
  · decide
  · decide
  · intro r hr
    simp only [List.mem_cons, List.not_mem_nil, or_false] at hr
    rcases hr with rfl | rfl | rfl
    · norm_num
    · norm_num
    · exact prime_1206781
  · decide
  · decide


theorem prime_13331831 : Nat.Prime 13331831 := by
  apply pratt_cert 13331831 13 [2, 5, 971, 1373]
  · decide
  · decide
  · intro r hr
    simp only [List.mem_cons, List.not_mem_nil, or_false] at hr
    rcases hr with rfl | rfl | rfl | rfl
    · norm_num
    · norm_num
    · norm_num
    · norm_num
  · decide
  · decide


theorem prime_44706919 : Nat.Prime 44706919 := by
  apply pratt_cert 44706919 6 [2, 3, 797, 9349]
  · decide
  · decide
  · intro r hr
    simp only [List.mem_cons, List.not_mem_nil, or_false] at hr
    rcases hr with rfl | rfl | rfl | rfl
    · norm_num
    · norm_num
    · norm_num
    · norm_num
  · decide
  · decide


theorem prime_107590001 : Nat.Prime 107590001 := by
  apply pratt_cert 107590001 3 [2, 2, 2, 2, 5, 5, 5, 5, 7, 29, 53]
  · decide
  · decide
  · intro r hr
    simp only [List.mem_cons, List.not_mem_nil, or_false] at hr
    rcases hr with rfl | rfl | rfl | rfl | rfl | rfl | rfl | rfl | rfl | rfl | rfl
    · norm_num
    · norm_num
    · norm_num
    · norm_num
    · norm_num
    · norm_num
    · norm_num
    · norm_num
    · norm_num
    · norm_num
    · norm_num
  · decide
  · decide


theorem prime_545358713 : Nat.Prime 545358713 := by
  apply pratt_cert 545358713 5 [2, 2, 2, 41, 59, 28181]
  · decide
  · decide
  · intro r hr
    simp only [List.mem_cons, List.not_mem_nil, or_false] at hr
    rcases hr with rfl | rfl | rfl | rfl | rfl | rfl
    · norm_num
    · norm_num
    · norm_num
    · norm_num
    · norm_num
    · norm_num
  · decide
  · decide


theorem prime_297159362677 : Nat.Prime 297159362677 := by
  apply pratt_cert 297159362677 2 [2, 2, 3, 3, 11, 461, 1627771]
  · decide
  · decide
  · intro r hr
    simp only [List.mem_cons, List.not_mem_nil, or_false] at hr
    rcases hr with rfl | rfl | rfl | rfl | rfl | rfl | rfl
    · norm_num
    · norm_num
    · norm_num
    · norm_num
    · norm_num
    · norm_num
    · exact prime_1627771
  · decide
  · decide

theorem prime_173378833005251801 : Nat.Prime 173378833005251801 := by
  apply pratt_cert 173378833005251801 6 [2, 2, 2, 5, 5, 2621, 24809, 13331831]
  · decide
  · decide
  · intro r hr
    simp only [List.mem_cons, List.not_mem_nil, or_false] at hr
    rcases hr with rfl | rfl | rfl | rfl | rfl | rfl | rfl | rfl
    · norm_num
    · norm_num
    · norm_num
    · norm_num
    · norm_num
    · norm_num
    · norm_num
    · exact prime_13331831
  · decide
  · decide

theorem prime_29047611873442575647497758179 : Nat.Prime 29047611873442575647497758179 := by
  apply pratt_cert 29047611873442575647497758179 2 [2, 293, 305873, 545358713, 297159362677]
  · decide
  · decide
  · intro r hr
    simp only [List.mem_cons, List.not_mem_nil, or_false] at hr
    rcases hr with rfl | rfl | rfl | rfl | rfl
    · norm_num
    · norm_num
    · norm_num
    · exact prime_545358713
    · exact prime_297159362677
  · decide
  · decide

theorem prime_107361793816595537 : Nat.Prime 107361793816595537 := by
  apply pratt_cert 107361793816595537 3 [2, 2, 2, 2, 16699, 85831, 4681609]
  · decide
  · decide
  · intro r hr
    simp only [List.mem_cons, List.not_mem_nil, or_false] at hr
    rcases hr with rfl | rfl | rfl | rfl | rfl | rfl | rfl
    · norm_num
    · norm_num
    · norm_num
    · norm_num
    · norm_num
    · norm_num
    · exact prime_4681609
  · decide
  · decide

theorem prime_174723607534414371449 : Nat.Prime 174723607534414371449 := by
  apply pratt_cert 174723607534414371449 3 [2, 2, 2, 17, 59, 4051, 120233, 44706919]
  · decide
  · decide
  · intro r hr
    simp only [List.mem_cons, List.not_mem_nil, or_false] at hr
    rcases hr with rfl | rfl | rfl | rfl | rfl | rfl | rfl | rfl
    · norm_num
    · norm_num
    · norm_num
    · norm_num
    · norm_num
    · norm_num
    · norm_num
    · exact prime_44706919
  · decide
  · decide

theorem prime_341948486974166000522343609283189 :
    Nat.Prime 341948486974166000522343609283189 := by
  apply pratt_cert 341948486974166000522343609283189 2
    [2, 2, 3, 3, 3, 109, 29047611873442575647497758179]
  · decide
  · decide
  · intro r hr
    simp only [List.mem_cons, List.not_mem_nil, or_false] at hr
    rcases hr with rfl | rfl | rfl | rfl | rfl | rfl | rfl
    · norm_num
    · norm_num
    · norm_num
    · norm_num
    · norm_num
    · norm_num
    · exact prime_29047611873442575647497758179
  · decide
  · decide

theorem prime_22149492674086928081353 : Nat.Prime 22149492674086928081353 := by
  apply pratt_cert 22149492674086928081353 5 [2, 2, 2, 3, 5323, 173378833005251801]
  · decide
  · decide
  · intro r hr
    simp only [List.mem_cons, List.not_mem_nil, or_false] at hr
    rcases hr with rfl | rfl | rfl | rfl | rfl | rfl
    · norm_num
    · norm_num
    · norm_num
    · norm_num
    · norm_num
    · exact prime_173378833005251801
  · decide
  · decide

theorem prime_132896956044521568488119 : Nat.Prime 132896956044521568488119 := by
  apply pratt_cert 132896956044521568488119 6 [2, 3, 22149492674086928081353]
  · decide
  · decide
  · intro r hr
    simp only [List.mem_cons, List.not_mem_nil, or_false] at hr
    rcases hr with rfl | rfl | rfl
    · norm_num
    · norm_num
    · exact prime_22149492674086928081353
  · decide
  · decide

theorem prime_255515944373312847190720520512484175977 :
    Nat.Prime 255515944373312847190720520512484175977 := by
  apply pratt_cert 255515944373312847190720520512484175977 3
    [2, 2, 2, 7, 7, 11, 1627, 2657, 4423, 41201, 96557, 7240687, 107590001]
  · decide
  · decide
  · intro r hr
    simp only [List.mem_cons, List.not_mem_nil, or_false] at hr
    rcases hr with rfl | rfl | rfl | rfl | rfl | rfl | rfl | rfl | rfl | rfl | rfl | rfl | rfl
    · norm_num
    · norm_num
    · norm_num
    · norm_num
    · norm_num
    · norm_num
    · norm_num
    · norm_num
    · norm_num
    · norm_num
    · norm_num
    · exact prime_7240687
    · exact prime_107590001
  · decide
  · decide

theorem prime_205115282021455665897114700593932402728804164701536103180137503955397371 :
    Nat.Prime 205115282021455665897114700593932402728804164701536103180137503955397371 := by
  apply pratt_cert 205115282021455665897114700593932402728804164701536103180137503955397371 10
    [2, 3, 5, 29, 29, 31, 7723, 132896956044521568488119,
     255515944373312847190720520512484175977]
  · decide
  · decide
  · intro r hr
    simp only [List.mem_cons, List.not_mem_nil, or_false] at hr
    rcases hr with rfl | rfl | rfl | rfl | rfl | rfl | rfl | rfl | rfl
    · norm_num
    · norm_num
    · norm_num
    · norm_num
    · norm_num
    · norm_num
    · norm_num
    · exact prime_132896956044521568488119
    · exact prime_255515944373312847190720520512484175977
  · decide
  · decide

/-- The secp256k1 base-field prime is prime. -/
theorem secpP_prime : Nat.Prime secpP := by
  apply pratt_cert secpP 3
    [2, 3, 7, 13441, 205115282021455665897114700593932402728804164701536103180137503955397371]
  · decide
  · decide
  · intro r hr
    simp only [List.mem_cons, List.not_mem_nil, or_false] at hr
    rcases hr with rfl | rfl | rfl | rfl | rfl
    · norm_num
    · norm_num
    · norm_num
    · norm_num
    · exact prime_205115282021455665897114700593932402728804164701536103180137503955397371
  · decide
  · decide

/-- The secp256k1 group order is prime. -/
theorem secpN_prime : Nat.Prime secpN := by
  apply pratt_cert secpN 7
    [2, 2, 2, 2, 2, 2, 3, 149, 631, 107361793816595537, 174723607534414371449,
     341948486974166000522343609283189]
  · decide
  · decide
  · intro r hr
    simp only [List.mem_cons, List.not_mem_nil, or_false] at hr
    rcases hr with rfl | rfl | rfl | rfl | rfl | rfl | rfl | rfl | rfl | rfl | rfl | rfl
    · norm_num
    · norm_num
    · norm_num
    · norm_num
    · norm_num
    · norm_num
    · norm_num
    · norm_num
    · norm_num
    · exact prime_107361793816595537
    · exact prime_174723607534414371449
    · exact prime_341948486974166000522343609283189
  · decide
  · decide

instance fact_secpP_prime : Fact (Nat.Prime secpP) := ⟨secpP_prime⟩

instance fact_secpN_prime : Fact (Nat.Prime secpN) := ⟨secpN_prime⟩

/-! ## secp256k1 as a Mathlib Weierstrass curve, and the raw-point bridge -/

/-- secp256k1, `y² = x³ + 7`, over the prime field `ZMod secpP`. -/
def secpCurve : WeierstrassCurve.Affine (ZMod secpP) :=
  { a₁ := 0, a₂ := 0, a₃ := 0, a₄ := 0, a₆ := 7 }

/-- Forget the curve structure: a Mathlib point as a raw coordinate pair. -/
def toRaw : secpCurve.Point → RawPoint
  | WeierstrassCurve.Affine.Point.zero => none
  | @WeierstrassCurve.Affine.Point.some _ _ _ x y _ => some (x.val, y.val)

theorem secpCurve_a₁ : secpCurve.a₁ = 0 := rfl

theorem secpCurve_a₂ : secpCurve.a₂ = 0 := rfl

theorem secpCurve_a₃ : secpCurve.a₃ = 0 := rfl

theorem secpCurve_a₄ : secpCurve.a₄ = 0 := rfl

theorem secpCurve_a₆ : secpCurve.a₆ = 7 := rfl

theorem secpP_pos : 0 < secpP := by norm_num [secpP]

theorem cast_val_eq (A : ZMod secpP) : ((A.val : ℕ) : ZMod secpP) = A :=
  ZMod.natCast_rightInverse A

theorem natmod_eq_val (x : Nat) (A : ZMod secpP) (h : ((x : ℕ) : ZMod secpP) = A) :
    x % secpP = A.val := by
  have h2 := congrArg ZMod.val h
  rwa [ZMod.val_natCast] at h2

theorem secpCurve_equation_iff (x y : ZMod secpP) :
    secpCurve.Equation x y ↔ y ^ 2 = x ^ 3 + 7 := by
  rw [WeierstrassCurve.Affine.equation_iff, secpCurve_a₁, secpCurve_a₂, secpCurve_a₃,
    secpCurve_a₄, secpCurve_a₆]
  constructor <;> intro h <;> linear_combination h

theorem ecValidate_iff_equation (x y : Nat) :
    ecValidate (some (x, y)) = true ↔
      secpCurve.Equation ((x : ℕ) : ZMod secpP) ((y : ℕ) : ZMod secpP) := by
  rw [secpCurve_equation_iff]
  show (y * y % secpP == (x * x * x + 7) % secpP) = true ↔ _
  rw [beq_iff_eq]
  constructor
  · intro h
    have hc : (((y * y : ℕ) : ZMod secpP)) = (((x * x * x + 7 : ℕ) : ZMod secpP)) := by
      rw [ZMod.natCast_eq_natCast_iff']
      exact h
    push_cast at hc
    linear_combination hc
  · intro h
    rw [← ZMod.natCast_eq_natCast_iff']
    push_cast
    linear_combination h

theorem char_ne_small (t : Nat) (h1 : 0 < t) (h2 : t < secpP) :
    ((t : ℕ) : ZMod secpP) ≠ 0 := by
  rw [Ne, ZMod.natCast_zmod_eq_zero_iff_dvd]
  intro hdvd
  have := Nat.le_of_dvd h1 hdvd
  omega

theorem secpCurve_nonsingular_of_equation (x y : ZMod secpP)
    (h : secpCurve.Equation x y) : secpCurve.Nonsingular x y := by
  rw [WeierstrassCurve.Affine.nonsingular_iff, secpCurve_a₁, secpCurve_a₂, secpCurve_a₃,
    secpCurve_a₄]
  refine ⟨h, ?_⟩
  by_contra hcon
  push_neg at hcon
  obtain ⟨h1, h2⟩ := hcon
  have h3 : (3 : ZMod secpP) * x ^ 2 = 0 := by linear_combination -h1
  have h2' : (2 : ZMod secpP) * y = 0 := by linear_combination h2
  have hy : y = 0 := by
    have hc2 : ((2 : ℕ) : ZMod secpP) ≠ 0 := char_ne_small 2 (by norm_num) (by norm_num [secpP])
    have : ((2 : ℕ) : ZMod secpP) * y = 0 := by push_cast; linear_combination h2'
    rcases mul_eq_zero.mp this with hc | hy
    · exact absurd hc hc2
    · exact hy
  have hx : x = 0 := by
    have hc3 : ((3 : ℕ) : ZMod secpP) ≠ 0 := char_ne_small 3 (by norm_num) (by norm_num [secpP])
    have : ((3 : ℕ) : ZMod secpP) * x ^ 2 = 0 := by push_cast; linear_combination h3
    rcases mul_eq_zero.mp this with hc | hx2
    · exact absurd hc hc3
    · exact pow_eq_zero_iff (by norm_num) |>.mp hx2
  rw [secpCurve_equation_iff, hx, hy] at h
  have h7 : ((7 : ℕ) : ZMod secpP) = 0 := by
    push_cast
    linear_combination -h
  exact char_ne_small 7 (by norm_num) (by norm_num [secpP]) h7

theorem val_add' (A B : ZMod secpP) : (A.val + B.val) % secpP = (A + B).val :=
  (ZMod.val_add A B).symm

theorem val_mul' (A B : ZMod secpP) : A.val * B.val % secpP = (A * B).val :=
  (ZMod.val_mul A B).symm

theorem val_submod (A B : ZMod secpP) : submod A.val B.val secpP = (A - B).val := by
  have hm : B.val % secpP ≤ secpP := le_of_lt (Nat.mod_lt _ secpP_pos)
  apply natmod_eq_val
  rw [Nat.cast_add, Nat.cast_sub hm, ZMod.natCast_self, ZMod.natCast_mod, cast_val_eq,
    cast_val_eq]
  ring

theorem val_inj' (A B : ZMod secpP) (h : A.val = B.val) : A = B := by
  rw [← cast_val_eq A, ← cast_val_eq B, h]

theorem val_pinv (A : ZMod secpP) (hA : A ≠ 0) : pinv A.val = A⁻¹.val := by
  unfold pinv
  rw [powMod_correct _ _ _ (by decide)]
  apply natmod_eq_val
  rw [Nat.cast_pow, cast_val_eq]
  have h1 : A * A ^ (secpP - 2) = 1 := by
    rw [← pow_succ', show secpP - 2 + 1 = secpP - 1 from by
      have := secpP_prime.two_le; omega]
    exact ZMod.pow_card_sub_one_eq_one hA
  exact (inv_eq_of_mul_eq_one_right h1).symm

theorem secpCurve_negY (x y : ZMod secpP) : secpCurve.negY x y = -y := by
  rw [WeierstrassCurve.Affine.negY, secpCurve_a₁, secpCurve_a₃]
  ring

theorem val_three_mul_sq (x : ZMod secpP) :
    3 * x.val * x.val % secpP = (3 * x * x).val := by
  apply natmod_eq_val
  push_cast [cast_val_eq]
  ring

theorem ecDbl_toRaw (P : secpCurve.Point) : ecDbl (toRaw P) = toRaw (P + P) := by
  cases P with
  | zero =>
    show ecDbl none = toRaw ((0 : secpCurve.Point) + 0)
    rw [add_zero]
    rfl
  | @some x y h =>
    show ecDbl (some (x.val, y.val)) = toRaw (_ + _)
    by_cases hy : y = secpCurve.negY x y
    · have hyy : y + y = 0 := by
        rw [secpCurve_negY] at hy
        linear_combination hy
      have hcond : (y.val + y.val) % secpP = 0 := by
        rw [val_add', hyy, ZMod.val_zero]
      rw [WeierstrassCurve.Affine.Point.add_self_of_Y_eq hy]
      show (if (y.val + y.val) % secpP = 0 then none else _) = none
      rw [if_pos hcond]
    · have hyy0 : y + y ≠ 0 := by
        intro hc
        apply hy
        rw [secpCurve_negY]
        linear_combination hc
      have hcond : (y.val + y.val) % secpP ≠ 0 := by
        rw [val_add']
        intro hc
        exact hyy0 ((ZMod.val_eq_zero _).mp hc)
      rw [WeierstrassCurve.Affine.Point.add_self_of_Y_ne hy]
      show (if (y.val + y.val) % secpP = 0 then none else _) = _
      rw [if_neg hcond, val_add', val_pinv _ hyy0, val_three_mul_sq, val_mul',
        val_mul', val_add', val_submod, val_submod, val_mul', val_submod]
      have hL : secpCurve.slope x x y y = 3 * x * x * (y + y)⁻¹ := by
        rw [WeierstrassCurve.Affine.slope_of_Y_ne rfl hy, secpCurve_a₁, secpCurve_a₂,
          secpCurve_a₄, secpCurve_negY, div_eq_mul_inv]
        congr 1
        · ring
        · congr 1
          ring
      have hA : secpCurve.addX x x (secpCurve.slope x x y y) =
          3 * x * x * (y + y)⁻¹ * (3 * x * x * (y + y)⁻¹) - (x + x) := by
        rw [WeierstrassCurve.Affine.addX, hL, secpCurve_a₁, secpCurve_a₂]
        ring
      have hY : secpCurve.addY x x y (secpCurve.slope x x y y) =
          3 * x * x * (y + y)⁻¹ *
            (x - (3 * x * x * (y + y)⁻¹ * (3 * x * x * (y + y)⁻¹) - (x + x))) - y := by
        rw [WeierstrassCurve.Affine.addY, WeierstrassCurve.Affine.negAddY,
          WeierstrassCurve.Affine.negY, hA, hL, secpCurve_a₁, secpCurve_a₃]
        ring
      show some _ = some ((secpCurve.addX x x (secpCurve.slope x x y y)).val,
        (secpCurve.addY x x y (secpCurve.slope x x y y)).val)
      rw [hA, hY]

theorem ecAdd_toRaw (P Q : secpCurve.Point) : ecAdd (toRaw P) (toRaw Q) = toRaw (P + Q) := by
  cases P with
  | zero =>
    show ecAdd none (toRaw Q) = toRaw ((0 : secpCurve.Point) + Q)
    rw [zero_add]
    cases Q <;> rfl
  | @some x1 y1 h1 =>
    cases Q with
    | zero =>
      show ecAdd (some (x1.val, y1.val)) none = toRaw (_ + (0 : secpCurve.Point))
      rw [add_zero]
      rfl
    | @some x2 y2 h2 =>
      show ecAdd (some (x1.val, y1.val)) (some (x2.val, y2.val)) = toRaw (_ + _)
      simp only [ecAdd]
      by_cases hxy : x1.val = x2.val ∧ y1.val = y2.val
      · obtain rfl : x1 = x2 := val_inj' _ _ hxy.1
        obtain rfl : y1 = y2 := val_inj' _ _ hxy.2
        rw [if_pos hxy, Subsingleton.elim h2 h1]
        exact ecDbl_toRaw (WeierstrassCurve.Affine.Point.some h1)
      · rw [if_neg hxy]
        by_cases hx : x1.val = x2.val
        · obtain rfl : x1 = x2 := val_inj' _ _ hx
          have hy : y1 ≠ y2 := by
            intro hc
            exact hxy ⟨rfl, by rw [hc]⟩
          have hyneg : y1 = secpCurve.negY x1 y2 :=
            (WeierstrassCurve.Affine.Y_eq_of_X_eq h1.1 h2.1 rfl).resolve_left hy
          rw [if_pos rfl, WeierstrassCurve.Affine.Point.add_of_Y_eq rfl hyneg]
          rfl
        · have hxne : x1 ≠ x2 := fun hc => hx (by rw [hc])
          have hsub0 : x1 - x2 ≠ 0 := sub_ne_zero_of_ne hxne
          rw [if_neg hx, WeierstrassCurve.Affine.Point.add_of_X_ne hxne]
          rw [val_submod, val_submod, val_pinv _ hsub0, val_mul', val_mul', val_submod,
            val_submod, val_submod, val_mul', val_submod]
          have hL : secpCurve.slope x1 x2 y1 y2 = (y1 - y2) * (x1 - x2)⁻¹ := by
            rw [WeierstrassCurve.Affine.slope_of_X_ne hxne, div_eq_mul_inv]
          have hA : secpCurve.addX x1 x2 (secpCurve.slope x1 x2 y1 y2) =
              (y1 - y2) * (x1 - x2)⁻¹ * ((y1 - y2) * (x1 - x2)⁻¹) - x1 - x2 := by
            rw [WeierstrassCurve.Affine.addX, hL, secpCurve_a₁, secpCurve_a₂]
            ring
          have hY : secpCurve.addY x1 x2 y1 (secpCurve.slope x1 x2 y1 y2) =
              (y1 - y2) * (x1 - x2)⁻¹ *
                (x1 - ((y1 - y2) * (x1 - x2)⁻¹ * ((y1 - y2) * (x1 - x2)⁻¹) - x1 - x2))
                - y1 := by
            rw [WeierstrassCurve.Affine.addY, WeierstrassCurve.Affine.negAddY,
              WeierstrassCurve.Affine.negY, hA, hL, secpCurve_a₁, secpCurve_a₃]
            ring
          show some _ = some ((secpCurve.addX x1 x2 (secpCurve.slope x1 x2 y1 y2)).val,
            (secpCurve.addY x1 x2 y1 (secpCurve.slope x1 x2 y1 y2)).val)
          rw [hA, hY]

theorem toRaw_eq_none_iff (P : secpCurve.Point) : toRaw P = none ↔ P = 0 := by
  cases P with
  | zero => exact ⟨fun _ => rfl, fun _ => rfl⟩
  | some h =>
    constructor
    · intro hc; exact absurd hc (by simp [toRaw])
    · intro hc; exact absurd hc (WeierstrassCurve.Affine.Point.some_ne_zero h)

theorem ecMulAux_toRaw : ∀ fuel k (P acc : secpCurve.Point), k < 2 ^ fuel →
    ecMulAux fuel (toRaw acc) (toRaw P) k = toRaw (acc + k • P) := by
  intro fuel
  induction fuel with
  | zero =>
    intro k P acc hk
    interval_cases k
    simp [ecMulAux, zero_nsmul]
  | succ f ih =>
    intro k P acc hk
    by_cases h0 : k = 0
    · subst h0
      simp [ecMulAux, zero_nsmul]
    · have hk2 : k / 2 < 2 ^ f := by
        rw [pow_succ] at hk
        omega
      rw [show ecMulAux (f + 1) (toRaw acc) (toRaw P) k
            = ecMulAux f (if k % 2 = 1 then ecAdd (toRaw acc) (toRaw P) else toRaw acc)
                (ecDbl (toRaw P)) (k / 2) from by simp [ecMulAux, h0]]
      rw [ecDbl_toRaw]
      rcases Nat.mod_two_eq_zero_or_one k with hpar | hpar
      · rw [if_neg (by omega), ih (k / 2) (P + P) acc hk2]
        conv_rhs => rw [show k = k / 2 * 2 from by omega]
        rw [← two_smul ℕ P, smul_smul]
      · rw [if_pos hpar, ecAdd_toRaw, ih (k / 2) (P + P) (acc + P) hk2]
        conv_rhs => rw [show k = k / 2 * 2 + 1 from by omega]
        rw [← two_smul ℕ P, smul_smul, succ_nsmul, ← add_assoc]
        exact congrArg toRaw (add_right_comm acc P _)

theorem ecMul_toRaw (P : secpCurve.Point) (k : Nat) (hk : k < 2 ^ 512) :
    ecMul (toRaw P) k = toRaw (k • P) := by
  have h := ecMulAux_toRaw 512 k P 0 hk
  rw [zero_add] at h
  exact h

theorem gOnCurve : secpCurve.Equation ((gX : ℕ) : ZMod secpP) ((gY : ℕ) : ZMod secpP) :=
  (ecValidate_iff_equation gX gY).mp (by decide)

/-- The generator as a Mathlib curve point. -/
def gPoint : secpCurve.Point :=
  WeierstrassCurve.Affine.Point.some (secpCurve_nonsingular_of_equation _ _ gOnCurve)

theorem toRaw_gPoint : toRaw gPoint = rawG := by
  show some ((((gX : ℕ) : ZMod secpP)).val, (((gY : ℕ) : ZMod secpP)).val) = some (gX, gY)
  rw [ZMod.val_natCast, ZMod.val_natCast, Nat.mod_eq_of_lt (by decide),
    Nat.mod_eq_of_lt (by decide)]

theorem nsmul_secpN_gPoint : secpN • gPoint = 0 := by
  have h := ecMul_toRaw gPoint secpN (by decide)
  rw [toRaw_gPoint, ecMul_rawG_secpN] at h
  exact (toRaw_eq_none_iff _).mp h.symm

theorem gPoint_ne_zero : gPoint ≠ 0 :=
  WeierstrassCurve.Affine.Point.some_ne_zero _

theorem addOrderOf_gPoint : addOrderOf gPoint = secpN := by
  have hdvd : addOrderOf gPoint ∣ secpN :=
    addOrderOf_dvd_of_nsmul_eq_zero nsmul_secpN_gPoint
  rcases Nat.Prime.eq_one_or_self_of_dvd secpN_prime _ hdvd with h1 | h2
  · exact absurd (AddMonoid.addOrderOf_eq_one_iff.mp h1) gPoint_ne_zero
  · exact h2

theorem nsmul_gPoint_eq_zero_iff (t : Nat) : t • gPoint = 0 ↔ secpN ∣ t := by
  rw [← addOrderOf_dvd_iff_nsmul_eq_zero, addOrderOf_gPoint]

theorem nsmul_gPoint_mod (t : Nat) : t • gPoint = (t % secpN) • gPoint := by
  conv_lhs => rw [show t = secpN * (t / secpN) + t % secpN from (Nat.div_add_mod t secpN).symm]
  rw [add_nsmul, mul_nsmul, nsmul_secpN_gPoint, nsmul_zero, zero_add]

theorem validate_toRaw (P : secpCurve.Point) :
    ecValidate (toRaw P) = true := by
  cases P with
  | zero => rfl
  | some h =>
    show ecValidate (some (_, _)) = true
    rw [ecValidate_iff_equation, cast_val_eq, cast_val_eq]
    exact h.1

/-! ## Claim C3: pointAdd returns the curve sum or falls back to G -/

/-- Coordinates are reduced mod the field prime, as `elliptic` maintains
for every constructed point (red-form coordinates). -/
def coordsLt : RawPoint → Bool
  | none => true
  | some (x, y) => decide (x < secpP) && decide (y < secpP)

/-- Interpret a validated raw point as a Mathlib curve point (the point at
infinity, which `elliptic` validates, is the group zero). -/
def toPoint : (P : RawPoint) → ecValidate P = true → secpCurve.Point
  | some (x, y), h =>
    WeierstrassCurve.Affine.Point.some
      (secpCurve_nonsingular_of_equation _ _ ((ecValidate_iff_equation x y).mp h))
  | none, _ => WeierstrassCurve.Affine.Point.zero

theorem toRaw_toPoint (p : RawPoint) (h : ecValidate p = true) (hr : coordsLt p = true) :
    toRaw (toPoint p h) = p := by
  cases p with
  | none => rfl
  | some xy =>
    obtain ⟨x, y⟩ := xy
    simp only [coordsLt, Bool.and_eq_true, decide_eq_true_eq] at hr
    show some ((((x : ℕ) : ZMod secpP)).val, (((y : ℕ) : ZMod secpP)).val) = some (x, y)
    rw [ZMod.val_natCast, ZMod.val_natCast, Nat.mod_eq_of_lt hr.1, Nat.mod_eq_of_lt hr.2]

theorem pointAdd_of_valid (A B : RawPoint)
    (hA : ecValidate A = true) (hB : ecValidate B = true) :
    pointAdd A B = ecAdd A B := by
  unfold pointAdd
  rw [hA, hB]
  rfl

/-- C3.  For raw points with reduced coordinates (as `elliptic` maintains):
if both pass curve validation — which accepts the point at infinity, mapped
to the group zero — `pointAdd` returns the elliptic-curve group sum (the
Mathlib group law on secp256k1); if either fails validation it returns the
generator; the function is total, so it never raises. -/
theorem c3_pointAdd_sum_or_generator (p1 p2 : RawPoint)
    (hr1 : coordsLt p1 = true) (hr2 : coordsLt p2 = true) :
    (∀ (h1 : ecValidate p1 = true) (h2 : ecValidate p2 = true),
      pointAdd p1 p2 = toRaw (toPoint p1 h1 + toPoint p2 h2)) ∧
    ((ecValidate p1 && ecValidate p2) = false → pointAdd p1 p2 = rawG) := by
  constructor
  · intro h1 h2
    rw [pointAdd_of_valid p1 p2 h1 h2, ← ecAdd_toRaw]
    rw [toRaw_toPoint p1 h1 hr1, toRaw_toPoint p2 h2 hr2]
  · intro h
    unfold pointAdd
    rw [if_pos h]

/-- C3 witness at `(∞, G)`: both points validate, so the first conjunct is
the genuine group addition `∞ + G = G` (no generator substitution); the
fallback conjunct is vacuous here. -/
theorem c3_pointAdd_sum_or_generator_witness :
    (∀ (h1 : ecValidate (none : RawPoint) = true) (h2 : ecValidate rawG = true),
      pointAdd none rawG = toRaw (toPoint none h1 + toPoint rawG h2)) ∧
    ((ecValidate (none : RawPoint) && ecValidate rawG) = false →
      pointAdd none rawG = rawG) :=
  c3_pointAdd_sum_or_generator none rawG (by decide) (by decide)

/-! ## Claim C1: verify ∘ sign round trip -/

theorem jsUmod_lt (a : Int) (m : Nat) (hm : 0 < m) : jsUmod a m < m := by
  unfold jsUmod
  have h1 : (0 : Int) ≤ a % (m : Int) := Int.emod_nonneg a (by exact_mod_cast hm.ne')
  have h2 : a % (m : Int) < (m : Int) := Int.emod_lt_of_pos a (by exact_mod_cast hm)
  omega

theorem jsUmod_coe (a : Int) (m : Nat) (hm : 0 < m) :
    ((jsUmod a m : ℕ) : ℤ) = a % (m : ℤ) := by
  unfold jsUmod
  rw [Int.toNat_of_nonneg (Int.emod_nonneg a (by exact_mod_cast hm.ne'))]

theorem jsUmod_sub_add_mod (k de m : Nat) (hm : 0 < m) :
    (jsUmod ((k : ℤ) - (de : ℤ)) m + de) % m = k % m := by
  have h2 : (((jsUmod ((k : ℤ) - (de : ℤ)) m + de) % m : ℕ) : ℤ) = (((k % m : ℕ)) : ℤ) := by
    rw [Int.natCast_mod, Int.natCast_mod, Nat.cast_add, jsUmod_coe _ _ hm,
      Int.emod_add_emod]
    congr 1
    ring
  exact_mod_cast h2

theorem schnorrSign_e_lt (H : HashFn) (d : Nat) (P : RawPoint) (k : Nat) (R : RawPoint)
    (m : List Char) (hH : ∀ b, H b < 2 ^ 256) :
    (schnorrSign H d P k R m).e < 2 ^ 256 := hH _

/-- C1.  For every hash function `H` with keccak's 256-bit output bound (the
keccak parameter of the embedding), private scalar `d` in `[1, n)` with
`P = d·G`, nonce scalar `k` in `[1, n)` with `R = k·G`, and message string
`m`: `schnorrVerify(P, m, schnorrSign(d, P, k, R, m))` returns `true`.
This holds for EVERY hash behaviour, including the degenerate cases
`s ≡ 0` or `d·e ≡ 0 (mod n)`: `elliptic`'s `validate` accepts the point at
infinity, so `pointAdd` never substitutes the generator here and the
recomputed commitment `s·G + e·P = (s + e·d)·G = k·G` is always exactly
`R`, an affine point (so neither signing nor verifying ever reaches the
throwing `getX`/`encode` paths on this run). -/
theorem c1_sign_verify_roundtrip (H : HashFn) (d k : Nat) (m : List Char)
    (_hd1 : 1 ≤ d) (hd2 : d < secpN) (_hk1 : 1 ≤ k) (hk2 : k < secpN)
    (hH : ∀ b, H b < 2 ^ 256) :
    schnorrVerify H (ecMul rawG d) m
      (schnorrSign H d (ecMul rawG d) k (ecMul rawG k) m) = true := by
  have hnpos : 0 < secpN := by norm_num [secpN]
  set sig := schnorrSign H d (ecMul rawG d) k (ecMul rawG k) m with hsig
  have hP : ecMul rawG d = toRaw (d • gPoint) := by
    have h := ecMul_toRaw gPoint d (lt_trans hd2 (by decide))
    rwa [toRaw_gPoint] at h
  have hR : ecMul rawG k = toRaw (k • gPoint) := by
    have h := ecMul_toRaw gPoint k (lt_trans hk2 (by decide))
    rwa [toRaw_gPoint] at h
  have hval : validatePublicKey (ecMul rawG d) = true := by
    rw [hP]
    exact validate_toRaw _
  -- the response scalar
  have hs_def : sig.s = jsUmod ((k : ℤ) - (d : ℤ) * ((sig.e : ℕ) : ℤ)) secpN := rfl
  have hs_lt : sig.s < secpN := by
    rw [hs_def]
    exact jsUmod_lt _ _ hnpos
  have hcong : (sig.s + d * sig.e) % secpN = k % secpN := by
    rw [hs_def]
    have h := jsUmod_sub_add_mod k (d * sig.e) secpN hnpos
    rwa [Nat.cast_mul] at h
  have hs_mod : sig.s % secpN = sig.s := Nat.mod_eq_of_lt hs_lt
  have he512 : sig.e < 2 ^ 512 :=
    lt_trans (schnorrSign_e_lt H d (ecMul rawG d) k (ecMul rawG k) m hH)
      (by norm_num)
  -- the recomputed commitment point
  have hA : ecMul rawG (sig.s % secpN) = toRaw (sig.s • gPoint) := by
    rw [hs_mod]
    have h := ecMul_toRaw gPoint sig.s (lt_trans hs_lt (by decide))
    rwa [toRaw_gPoint] at h
  have hB : ecMul (ecMul rawG d) sig.e = toRaw ((sig.e * d) • gPoint) := by
    rw [hP, ecMul_toRaw _ _ he512, smul_smul]
  have hAB : pointAdd (ecMul rawG (sig.s % secpN)) (ecMul (ecMul rawG d) sig.e)
      = ecMul rawG k := by
    rw [pointAdd_of_valid _ _
      (by rw [hA]; exact validate_toRaw _)
      (by rw [hB]; exact validate_toRaw _)]
    rw [hA, hB, ecAdd_toRaw, ← add_nsmul, nsmul_gPoint_mod,
      show sig.s + sig.e * d = sig.s + d * sig.e from by ring, hcong,
      ← nsmul_gPoint_mod, hR]
  -- run the verifier
  show schnorrVerify H (ecMul rawG d) m sig = true
  unfold schnorrVerify
  rw [hval]
  simp only [Bool.not_true, Bool.false_eq_true, if_false]
  rw [hAB]
  simp only [decide_eq_true_eq]
  rfl

/-- C1 witness at a concrete instance (constant hash `1`, `d = 1`, `k = 2`). -/
theorem c1_sign_verify_roundtrip_witness :
    schnorrVerify (fun _ => 1) (ecMul rawG 1) []
      (schnorrSign (fun _ => 1) 1 (ecMul rawG 1) 2 (ecMul rawG 2) []) = true :=
  c1_sign_verify_roundtrip (fun _ => 1) 1 2 [] (by decide) (by decide) (by decide)
    (by decide) (fun _ => by norm_num)
